import Mathlib

/-!
Shallow embedding of the Contaxt-Packer core: the glob/shorthand pattern
matcher (`src/utils/patternMatcher.ts`), the filter pipeline
(`src/utils/fileProcessor.ts`), the bundle selector and the chunk-packing
algorithm (the `filteredFiles` and `chunks` memos of
`src/components/OutputViewer.tsx`).

Modeling conventions:
* JavaScript strings are modeled as `List Char`.
* JavaScript numbers holding integral values are modeled as `Int`/`Nat`;
  the single fractional constant (`0.2` in `findSplitPoint`) is modeled
  exactly as the rational 1/5, with its one comparison scaled into `ℤ`
  (the double closest to 0.2 differs from 1/5 by ~5.6e-18, which never
  changes that comparison at integral inputs of the magnitudes involved).
* The possibly diverging packing loop is modeled with explicit fuel and
  returns `Option` (`none` = the loop did not finish within the fuel).
-/

namespace ContextPacker

/-! ## JavaScript string primitives (over `List Char`) -/

/-- Index resolution of JS `String.prototype.slice`: a negative index
counts from the end of the string, then the result is clamped to
`[0, length]`. -/
def jsSliceIndex (len : Nat) (i : Int) : Nat :=
  (if i < 0 then max ((len : Int) + i) 0 else min i (len : Int)).toNat

/-- JS `text.slice(s, e)`. -/
def jsSlice2 (text : List Char) (s e : Int) : List Char :=
  (text.take (jsSliceIndex text.length e)).drop (jsSliceIndex text.length s)

/-- JS `text.slice(s)`. -/
def jsSlice1 (text : List Char) (s : Int) : List Char :=
  jsSlice2 text s (text.length : Int)

/-- Largest index `i ≤ limit` such that `text[i] = '\n'`, or `-1` if there
is none. -/
def lastNLUpTo : List Char → Nat → Int
  | [], _ => -1
  | c :: _, 0 => if c = '\n' then 0 else -1
  | c :: cs, l + 1 =>
    let r := lastNLUpTo cs l
    if r ≥ 0 then r + 1 else if c = '\n' then 0 else -1

/-- JS `text.lastIndexOf('\n', fromIndex)`: the position argument is
clamped into `[0, length]` (a negative position still allows a match at
index 0). -/
def jsLastIndexOfNL (text : List Char) (fromIndex : Int) : Int :=
  lastNLUpTo text (if fromIndex < 0 then 0 else fromIndex.toNat)

/-- JS `hay.includes(needle)` (substring containment). -/
def listIncludes : List Char → List Char → Bool
  | [], needle => needle.isEmpty
  | hay@(_ :: t), needle => needle.isPrefixOf hay || listIncludes t needle

/-- JS `name.split('.')`. -/
def splitOnDot : List Char → List (List Char)
  | [] => [[]]
  | '.' :: rest => [] :: splitOnDot rest
  | c :: rest =>
    match splitOnDot rest with
    | [] => [[c]]
    | g :: gs => (c :: g) :: gs

/-! ## Pattern matcher (`src/utils/patternMatcher.ts`) -/

/-- The character class escaped by `globToRegex`:
`pattern.replace(/[.+^${}()|[\]\\]/g, '\\$&')`. -/
def isRegexSpecial (c : Char) : Bool :=
  c = '.' || c = '+' || c = '^' || c = '$' || c = '{' || c = '}' ||
  c = '(' || c = ')' || c = '|' || c = '[' || c = ']' || c = '\\'

/-- First step of `globToRegex`: escape regex metacharacters (every
special character is prefixed with a backslash). `*` and `?` are left
untouched. -/
def escapeRegexSpecials (p : List Char) : List Char :=
  p.flatMap (fun c => if isRegexSpecial c then ['\\', c] else [c])

/-- Second step: `.replace(/\*\*/g, '.*')` — every (left-to-right,
non-overlapping) occurrence of `**` becomes `.*`. -/
def replaceStarStar : List Char → List Char
  | '*' :: '*' :: rest => '.' :: '*' :: replaceStarStar rest
  | c :: rest => c :: replaceStarStar rest
  | [] => []

/-- Third step: `.replace(/\*/g, '[^/]*')` — every remaining `*`
(including the one just produced by the `**` rewrite) becomes `[^/]*`. -/
def replaceStar : List Char → List Char
  | '*' :: rest => '[' :: '^' :: '/' :: ']' :: '*' :: replaceStar rest
  | c :: rest => c :: replaceStar rest
  | [] => []

/-- Fourth step: `.replace(/\?/g, '.')`. -/
def replaceQmark (p : List Char) : List Char :=
  p.map (fun c => if c = '?' then '.' else c)

/-- The regex fragments that `globToRegex` can produce:
an (escaped or plain) literal character, the metacharacter `.`,
and the fragment `[^/]*`. -/
inductive RTok where
  | lit (c : Char)
  | anyChar
  | starNonSlash
deriving DecidableEq, Repr

/-- Parse the regular-expression source string produced by `globToRegex`
into its fragments. On those strings the grammar is unambiguous: every
metacharacter of the pattern was escaped, so an unescaped `[` can only
start the produced fragment `[^/]*` and an unescaped `.` can only come
from the `**`/`?` rewrites. -/
def parseRegex : List Char → List RTok
  | [] => []
  | '\\' :: c :: rest => .lit c :: parseRegex rest
  | '[' :: '^' :: '/' :: ']' :: '*' :: rest => .starNonSlash :: parseRegex rest
  | '.' :: rest => .anyChar :: parseRegex rest
  | c :: rest => .lit c :: parseRegex rest

/-- `globToRegex` (src/utils/patternMatcher.ts:8-24): escape the regex
metacharacters, rewrite `**`, then `*`, then `?`, and read the result back
as a token list (the`^...$` anchoring and the `i` flag are realized in the
matching function below). -/
def globToRegex (pattern : List Char) : List RTok :=
  parseRegex (replaceQmark (replaceStar (replaceStarStar (escapeRegexSpecials pattern))))

/-- JS regex `.` does not match line terminators. -/
def isLineTerminator (c : Char) : Bool :=
  c = '\n' || c = '\r' || c = Char.ofNat 8232 || c = Char.ofNat 8233

/-- Anchored matching of a produced regex against a string, with the `i`
flag modeled as `Char.toLower` folding on both sides (the inputs here are
ASCII paths). `fuel` bounds the recursion; `tokens.length + input.length + 1`
always suffices because every call site shrinks `tokens` or `input`. -/
def reMatch : Nat → List RTok → List Char → Bool
  | 0, _, _ => false
  | _ + 1, [], input => input.isEmpty
  | _ + 1, .lit _ :: _, [] => false
  | f + 1, .lit c :: ts, x :: xs => (c.toLower = x.toLower) && reMatch f ts xs
  | _ + 1, .anyChar :: _, [] => false
  | f + 1, .anyChar :: ts, x :: xs => !(isLineTerminator x) && reMatch f ts xs
  | f + 1, .starNonSlash :: ts, [] => reMatch f ts []
  | f + 1, .starNonSlash :: ts, x :: xs =>
    reMatch f ts (x :: xs) || (!(x = '/') && reMatch f (.starNonSlash :: ts) xs)

/-- `regex.test(normalizedPath)` for the compiled glob. -/
def regexTest (pattern path : List Char) : Bool :=
  let tokens := globToRegex pattern
  reMatch (tokens.length + path.length + 1) tokens path

/-- `matchesAnyPattern` (src/utils/patternMatcher.ts:30-57): normalize
backslashes to forward slashes, then for each pattern check exact
equality first, then the segment-shorthand branch for patterns with
neither `/` nor `*`, and otherwise the compiled glob. The `try/catch`
of the source is dead code in this model: the produced regex source is
always well formed. -/
def matchesAnyPattern (filePath : List Char) (patterns : List (List Char)) : Bool :=
  let normalizedPath := filePath.map (fun c => if c = '\\' then '/' else c)
  patterns.any (fun pattern =>
    if pattern = normalizedPath then true
    else if !(pattern.contains '/') && !(pattern.contains '*') then
      listIncludes normalizedPath ('/' :: (pattern ++ ['/'])) ||
      (pattern ++ ['/']).isPrefixOf normalizedPath ||
      ('/' :: pattern).isSuffixOf normalizedPath ||
      normalizedPath = pattern
    else
      regexTest pattern normalizedPath)

/-- `hasIgnoredExtension` (src/utils/patternMatcher.ts:63-66):
`'.' + fileName.split('.').pop()?.toLowerCase()` membership in the
denylist. `split('.')` always returns a non-empty array, so `pop()` never
yields `undefined`; the `getD` default is dead code. -/
def hasIgnoredExtension (fileName : List Char) (ignoredExtensions : List (List Char)) : Bool :=
  let ext := '.' :: (((splitOnDot fileName).getLast?.getD []).map Char.toLower)
  ignoredExtensions.contains ext

/-! ## Filter pipeline (`src/utils/fileProcessor.ts`) -/

/-- An already-read input record handed to `processFiles`. `path` is the
browser-resolved `file.webkitRelativePath || file.name`; `size` is the
byte size reported by the `File` object (independent of the decoded
character count). -/
structure RawFile where
  path : List Char
  name : List Char
  size : Nat
  content : List Char
deriving DecidableEq, Repr

/-- The record produced for every included file (the `FileEntry` of
`src/types`). -/
structure FileEntry where
  path : List Char
  name : List Char
  content : List Char
  size : Nat
  extension : List Char
deriving DecidableEq, Repr

/-- The entry pushed by `processFiles`: `extension` is
`file.name.split('.').pop() || ''`. -/
def mkEntry (file : RawFile) : FileEntry :=
  { path := file.path
    name := file.name
    content := file.content
    size := file.size
    extension := (splitOnDot file.name).getLast?.getD [] }

/-- Lexicographic character-code order on paths, standing in for
`a.path.localeCompare(b.path)` (locale-aware collation is outside the
model; the claims below only concern membership, which is independent of
the comparator). -/
def pathLe : List Char → List Char → Bool
  | [], _ => true
  | _ :: _, [] => false
  | a :: as, b :: bs => if a = b then pathLe as bs else decide (a < b)

/-- Insert into a sorted list (model of the final `.sort`). -/
def insertSorted (x : FileEntry) : List FileEntry → List FileEntry
  | [] => [x]
  | y :: ys => if pathLe x.path y.path then x :: y :: ys else y :: insertSorted x ys

/-- Sort the processed files by path. -/
def sortByPath (l : List FileEntry) : List FileEntry :=
  l.foldr insertSorted []

/-- `processFiles` (src/utils/fileProcessor.ts:15-65), restricted to the
records whose read succeeds (a rejected read only skips the record, which
the input can equally represent by omitting it). The four exclusion
checks run in source order: ignore patterns, extension denylist, the
500 KiB size ceiling, and the NUL-byte binary sniff. Progress reporting
is a side effect with no bearing on the result. -/
def processFiles (fileList : List RawFile)
    (ignorePatterns ignoreExtensions : List (List Char)) : List FileEntry :=
  sortByPath (fileList.filterMap (fun file =>
    if matchesAnyPattern file.path ignorePatterns then none
    else if hasIgnoredExtension file.name ignoreExtensions then none
    else if file.size > 500 * 1024 then none
    else if file.content.contains (Char.ofNat 0) then none
    else some (mkEntry file)))

/-! ## Bundle selector (`filteredFiles` memo, OutputViewer.tsx:36-43) -/

/-- A named pattern group (the `Bundle` of `src/types`). -/
structure Bundle where
  id : List Char
  name : List Char
  patterns : List (List Char)
deriving DecidableEq, Repr

/-- The `filteredFiles` memo: `"all"` is the identity, an unknown bundle
id falls back to the identity, otherwise filter by the bundle's
patterns. -/
def filteredFiles (files : List FileEntry) (bundles : List Bundle)
    (activeBundleId : List Char) : List FileEntry :=
  if activeBundleId = "all".toList then files
  else
    match bundles.find? (fun b => b.id = activeBundleId) with
    | none => files
    | some bundle => files.filter (fun f => matchesAnyPattern f.path bundle.patterns)

/-! ## Chunk packer (`chunks` memo, OutputViewer.tsx:115-214) -/

/-- `ChunkFileEntry extends FileEntry` (OutputViewer.tsx:17-22). The
extra `fileId` field is a ghost field recording the position of the
originating file in the input list: it models JavaScript object identity,
which the source relies on when it retroactively mutates the parts of a
file (`fileParts.forEach(p => { p.isSplit = ...; p.totalParts = ... })`)
after some of them were already pushed into flushed chunks. -/
structure ChunkFileEntry extends FileEntry where
  originalPath : List Char
  isSplit : Bool
  partIndex : Nat
  totalParts : Nat
  fileId : Nat
deriving DecidableEq, Repr

/-- The running state of the packing loop. `currentChunkSize` is kept in
`Int` because the source freely subtracts it from `limitChars`. -/
structure PackState where
  resultChunks : List (List ChunkFileEntry)
  currentChunkFiles : List ChunkFileEntry
  currentChunkSize : Int
deriving DecidableEq, Repr

def PER_FILE_OVERHEAD : Int := 200

def CHUNK_OVERHEAD : Int := 100

/-- Push the current chunk onto `resultChunks` and start a fresh one
(the temporary `temp-i` ids of the source are dropped: they are
recomputed in the final mapping). -/
def flushState (st : PackState) : PackState :=
  { resultChunks := st.resultChunks ++ [st.currentChunkFiles]
    currentChunkFiles := []
    currentChunkSize := CHUNK_OVERHEAD }

/-- Append a freshly produced part to the current chunk and account for
its content plus the per-file overhead. -/
def pushPart (part : ChunkFileEntry) (st : PackState) : PackState :=
  { st with
    currentChunkFiles := st.currentChunkFiles ++ [part]
    currentChunkSize := st.currentChunkSize + (part.content.length : Int) + PER_FILE_OVERHEAD }

/-- `findSplitPoint` (OutputViewer.tsx:134-142). The source computes
`searchWindow = Math.min(1000, maxChars * 0.2)` and tests
`lastNewline > maxChars - searchWindow`; with `0.2 = 1/5` that test is
stated here multiplied through by 5 so that it stays in `ℤ`:
`5 * lastNewline > 5 * maxChars - min 5000 maxChars`. -/
def findSplitPoint (text : List Char) (maxChars : Int) : Int :=
  if (text.length : Int) ≤ maxChars then (text.length : Int)
  else
    let lastNewline : Int := jsLastIndexOfNL text maxChars
    if 5 * lastNewline > 5 * maxChars - min 5000 maxChars then lastNewline + 1
    else maxChars

/-- One file's `while (remainingContent.length > 0)` loop
(OutputViewer.tsx:149-194). `cf` is the file's `ChunkFileEntry` from
`allFilesAsChunkFiles`; each produced part is `{...file, content,
partIndex}`. `fuel` bounds the number of iterations; `none` means the
loop did not finish (which genuinely happens, see the claim-C2
theorem). -/
def packFileLoop (limitChars : Int) (cf : ChunkFileEntry) :
    Nat → List Char → Nat → List ChunkFileEntry → PackState →
    Option (List ChunkFileEntry × PackState)
  | 0, _, _, _, _ => none
  | fuel + 1, remainingContent, partCounter, fileParts, st =>
    if remainingContent.length = 0 then some (fileParts, st)
    else
      let spaceInCurrent := limitChars - st.currentChunkSize
      let maxContentInCurrent := spaceInCurrent - PER_FILE_OVERHEAD
      if maxContentInCurrent < 500 && st.currentChunkFiles.length > 0 then
        packFileLoop limitChars cf fuel remainingContent partCounter fileParts (flushState st)
      else
        let currentSpace := limitChars - st.currentChunkSize - PER_FILE_OVERHEAD
        if (remainingContent.length : Int) ≤ currentSpace then
          let part := { cf with content := remainingContent, partIndex := partCounter }
          packFileLoop limitChars cf fuel [] partCounter (fileParts ++ [part]) (pushPart part st)
        else
          let splitLength := findSplitPoint remainingContent currentSpace
          let part := { cf with content := jsSlice2 remainingContent 0 splitLength,
                                partIndex := partCounter }
          let rest := jsSlice1 remainingContent splitLength
          let st' := pushPart part st
          packFileLoop limitChars cf fuel rest (partCounter + 1) (fileParts ++ [part])
            (if rest.length > 0 then flushState st' else st')

/-- The retroactive mutation `p.isSplit = true; p.totalParts = totalParts`
applied (through shared references) to every part of the file identified
by `fid`, wherever it is already stored. -/
def stampEntry (fid n : Nat) (e : ChunkFileEntry) : ChunkFileEntry :=
  if e.fileId = fid then { e with isSplit := true, totalParts := n } else e

/-- Apply the retroactive mutation across the whole packing state. -/
def stampState (fid n : Nat) (st : PackState) : PackState :=
  { resultChunks := st.resultChunks.map (fun c => c.map (stampEntry fid n))
    currentChunkFiles := st.currentChunkFiles.map (stampEntry fid n)
    currentChunkSize := st.currentChunkSize }

/-- Process one file of the `for (const file of allFilesAsChunkFiles)`
loop: run the inner while-loop, then, if the file produced more than one
part, mark all of its parts as split. -/
def packFile (limitChars : Int) (fuel : Nat) (st : PackState) (cf : ChunkFileEntry) :
    Option PackState :=
  match packFileLoop limitChars cf fuel cf.content 1 [] st with
  | none => none
  | some (fileParts, st') =>
    some (if fileParts.length > 1 then stampState cf.fileId fileParts.length st' else st')

/-- The `for` loop over all files. -/
def packFilesLoop (limitChars : Int) (fuel : Nat) :
    List ChunkFileEntry → PackState → Option PackState
  | [], st => some st
  | cf :: rest, st =>
    match packFile limitChars fuel st cf with
    | none => none
    | some st' => packFilesLoop limitChars fuel rest st'

/-- An output chunk (its rendered `content` string — the format
renderer — is outside the claims treated here and is not modeled). -/
structure Chunk where
  id : List Char
  files : List ChunkFileEntry
  label : List Char
deriving DecidableEq, Repr

/-- The per-file seed of `allFilesAsChunkFiles`
(OutputViewer.tsx:119-125): `{...f, originalPath: f.path, isSplit:
false, partIndex: 1, totalParts: 1}`, with the ghost `fileId` recording
the file's position. -/
def mkChunkFileEntry (fid : Nat) (f : FileEntry) : ChunkFileEntry :=
  { toFileEntry := f
    originalPath := f.path
    isSplit := false
    partIndex := 1
    totalParts := 1
    fileId := fid }

/-- The `chunks` memo (OutputViewer.tsx:115-214), called `pack` as in the
specification: empty input yields zero chunks; with splitting disabled a
single "Full Context" chunk holds every file; otherwise the bin-packing
loop runs with `limitChars = maxTokens * 4` and the finalized chunks are
labeled `"Part i of N"`. -/
def pack (files : List FileEntry) (enableSplitting : Bool) (maxTokens : Nat)
    (fuel : Nat) : Option (List Chunk) :=
  let allFilesAsChunkFiles := files.enum.map (fun p => mkChunkFileEntry p.1 p.2)
  if allFilesAsChunkFiles.length = 0 then some []
  else if !enableSplitting then
    some [{ id := "full".toList, files := allFilesAsChunkFiles,
            label := "Full Context".toList }]
  else
    let limitChars : Int := (maxTokens : Int) * 4
    match packFilesLoop limitChars fuel allFilesAsChunkFiles
        { resultChunks := [], currentChunkFiles := [], currentChunkSize := CHUNK_OVERHEAD } with
    | none => none
    | some st =>
      let finalChunks :=
        if st.currentChunkFiles.length > 0 then st.resultChunks ++ [st.currentChunkFiles]
        else st.resultChunks
      some (finalChunks.enum.map (fun p =>
        { id := ("part-" ++ toString (p.1 + 1)).toList
          files := p.2
          label := ("Part " ++ toString (p.1 + 1) ++ " of " ++
                    toString finalChunks.length).toList }))

/-- All parts currently held by the state, in emission order. -/
def allEntries (st : PackState) : List ChunkFileEntry :=
  st.resultChunks.flatten ++ st.currentChunkFiles

/-- The original paths appearing across a chunk list, in order. -/
def pathsInChunks (chunks : List Chunk) : List (List Char) :=
  ((chunks.map Chunk.files).flatten).map (fun e => e.originalPath)

/-! ## Concrete inputs used by witnesses and counterexamples -/

/-- A one-file input used by several witnesses. -/
def wFile : FileEntry :=
  { path := "a.txt".toList, name := "a.txt".toList, content := "ab".toList,
    size := 2, extension := "txt".toList }

/-- The single part `pack [wFile] true 25000 3` emits for `wFile`. -/
def wPart : ChunkFileEntry :=
  { toFileEntry := wFile, originalPath := "a.txt".toList, isSplit := false,
    partIndex := 1, totalParts := 1, fileId := 0 }

/-- The chunk list `pack [wFile] true 25000 3` produces. -/
def wChunks : List Chunk :=
  [{ id := "part-1".toList, files := [wPart], label := "Part 1 of 1".toList }]

/-- The failing input for claim C2: a five-character file below any
budget concern. -/
def helloFile : FileEntry :=
  { path := "a.txt".toList, name := "a.txt".toList, content := "hello".toList,
    size := 5, extension := "txt".toList }

/-- Specification of the parts one file contributes: their contents
concatenate to `rem`, their part indexes count up from `startIdx`, they
all carry the file's identity and original path, and they are empty
exactly when `rem` is. -/
def goodParts (cf : ChunkFileEntry) (startIdx : Nat) (rem : List Char)
    (l : List ChunkFileEntry) : Prop :=
  (l.map (fun e => e.content)).flatten = rem ∧
  l.map (fun e => e.partIndex) = List.range' startIdx l.length ∧
  (∀ e ∈ l, e.fileId = cf.fileId ∧ e.originalPath = cf.originalPath) ∧
  (l = [] ↔ rem = [])

/-! ## Lemmas about the split-point search -/

theorem neg_one_le_lastNLUpTo : ∀ (text : List Char) (limit : Nat), -1 ≤ lastNLUpTo text limit
  | [], _ => le_refl _
  | c :: _, 0 => by
    simp only [lastNLUpTo]
    split <;> omega
  | c :: cs, l + 1 => by
    simp only [lastNLUpTo]
    have := neg_one_le_lastNLUpTo cs l
    split
    · omega
    · split <;> omega

theorem lastNLUpTo_le : ∀ (text : List Char) (limit : Nat), lastNLUpTo text limit ≤ (limit : Int)
  | [], _ => by simp [lastNLUpTo]; omega
  | c :: _, 0 => by
    simp only [lastNLUpTo]
    split <;> omega
  | c :: cs, l + 1 => by
    simp only [lastNLUpTo]
    have := lastNLUpTo_le cs l
    split
    · push_cast
      omega
    · split <;> [omega; (push_cast; omega)]

theorem lastNLUpTo_newline : ∀ (text : List Char) (limit : Nat),
    0 ≤ lastNLUpTo text limit →
    ∃ i : Nat, (i : Int) = lastNLUpTo text limit ∧ text[i]? = some '\n'
  | [], limit => by simp [lastNLUpTo]
  | c :: cs, 0 => by
    simp only [lastNLUpTo]
    split
    · rename_i hc
      exact fun _ => ⟨0, by simp [hc]⟩
    · omega
  | c :: cs, l + 1 => by
    simp only [lastNLUpTo]
    split
    · rename_i hr
      intro _
      obtain ⟨i, hi, hnl⟩ := lastNLUpTo_newline cs l hr
      exact ⟨i + 1, by push_cast; omega, by simpa using hnl⟩
    · split
      · rename_i hc
        exact fun _ => ⟨0, by simp [hc]⟩
      · omega

theorem jsLastIndexOfNL_le (text : List Char) (fromIndex : Int) (h : 0 ≤ fromIndex) :
    jsLastIndexOfNL text fromIndex ≤ fromIndex := by
  unfold jsLastIndexOfNL
  rw [if_neg (by omega)]
  have := lastNLUpTo_le text fromIndex.toNat
  rwa [Int.toNat_of_nonneg h] at this

theorem neg_one_le_jsLastIndexOfNL (text : List Char) (fromIndex : Int) :
    -1 ≤ jsLastIndexOfNL text fromIndex :=
  neg_one_le_lastNLUpTo text _

theorem jsLastIndexOfNL_newline (text : List Char) (fromIndex : Int)
    (h : 0 ≤ jsLastIndexOfNL text fromIndex) :
    ∃ i : Nat, (i : Int) = jsLastIndexOfNL text fromIndex ∧ text[i]? = some '\n' :=
  lastNLUpTo_newline text _ h

/-! ## Claim C6 — the split point versus the hard character limit -/

/-- Claim C6, counterexample: for `text = "ab\ncd"` and `maxChars = 2` the
newline sits exactly at index `maxChars`, `lastIndexOf('\n', maxChars)`
is inclusive of that index, the window test passes, and the returned
split point is `maxChars + 1 = 3` — so `findSplitPoint` is *not* always
at most `maxChars`. -/
theorem c6_counterexample : ¬ (findSplitPoint "ab\ncd".toList 2 ≤ 2) := by decide

/-- Claim C6, amended: for `0 ≤ maxChars` and text longer than
`maxChars`, the split point is at most `maxChars + 1`; it is either the
hard cut at exactly `maxChars`, or one past a newline that lies at an
index `≤ maxChars`. -/
theorem c6_split_point_bound (text : List Char) (maxChars : Int)
    (h0 : 0 ≤ maxChars) (hlen : maxChars < (text.length : Int)) :
    findSplitPoint text maxChars ≤ maxChars + 1 ∧
    (findSplitPoint text maxChars = maxChars ∨
      ∃ i : Nat, (i : Int) ≤ maxChars ∧ text[i]? = some '\n' ∧
        findSplitPoint text maxChars = (i : Int) + 1) := by
  unfold findSplitPoint
  rw [if_neg (by omega)]
  simp only
  have hle := jsLastIndexOfNL_le text maxChars h0
  have hge := neg_one_le_jsLastIndexOfNL text maxChars
  have hmin : min (5000 : Int) maxChars ≤ maxChars := min_le_right _ _
  split
  · rename_i hcond
    have hpos : 0 ≤ jsLastIndexOfNL text maxChars := by omega
    obtain ⟨i, hi, hnl⟩ := jsLastIndexOfNL_newline text maxChars hpos
    exact ⟨by omega, Or.inr ⟨i, by omega, hnl, by omega⟩⟩
  · exact ⟨by omega, Or.inl rfl⟩

/-- Witness for `c6_split_point_bound` at `text = "abcdef"`,
`maxChars = 3` (no newline: the hard cut at exactly 3 is taken). -/
theorem c6_split_point_bound_witness :
    findSplitPoint "abcdef".toList 3 ≤ 3 + 1 ∧
    (findSplitPoint "abcdef".toList 3 = 3 ∨
      ∃ i : Nat, (i : Int) ≤ 3 ∧ "abcdef".toList[i]? = some '\n' ∧
        findSplitPoint "abcdef".toList 3 = (i : Int) + 1) :=
  c6_split_point_bound "abcdef".toList 3 (by decide) (by decide)

/-! ## Claim C5 — the `**` wildcard -/

/-- Claim C5 fails on the code: the `**` rewrite inserts `.*`, and the
subsequent global `*` rewrite hits the star it just inserted, so
`src/**/*.ts` compiles to `^src/.[^/]*/[^/]*\.ts$` — `**` matches one
arbitrary character followed by a run of non-separator characters, and
cannot cross a `/`. Consequently the doubly nested `src/a/b/c.ts` does
not match, although the source's own doc comment promises that `**`
"matches any character including /". -/
theorem c5_doublestar_does_not_cross_separators :
    globToRegex "src/**/*.ts".toList =
      [RTok.lit 's', RTok.lit 'r', RTok.lit 'c', RTok.lit '/', RTok.anyChar,
       RTok.starNonSlash, RTok.lit '/', RTok.starNonSlash, RTok.lit '.',
       RTok.lit 't', RTok.lit 's'] ∧
    matchesAnyPattern "src/a/b/c.ts".toList ["src/**/*.ts".toList] = false ∧
    matchesAnyPattern "src/utils/helper.ts".toList ["src/**/*.ts".toList] = true := by
  decide

/-! ## Claim C7 — segment shorthand patterns -/

/-- Claim C7: a pattern with neither `/` nor `*` is matched as a segment
shorthand — equality with the slash-normalized path, `pattern/` prefix,
`/pattern` suffix, or `/pattern/` substring — and the two concrete
examples of the claim hold. -/
theorem c7_segment_shorthand (path pattern : List Char)
    (h1 : pattern.contains '/' = false) (h2 : pattern.contains '*' = false) :
    (matchesAnyPattern path [pattern] = true ↔
      (path.map (fun c => if c = '\\' then '/' else c) = pattern ∨
       (pattern ++ ['/']).isPrefixOf (path.map (fun c => if c = '\\' then '/' else c)) = true ∨
       ('/' :: pattern).isSuffixOf (path.map (fun c => if c = '\\' then '/' else c)) = true ∨
       listIncludes (path.map (fun c => if c = '\\' then '/' else c))
         ('/' :: (pattern ++ ['/'])) = true)) ∧
    matchesAnyPattern "src/node_modules/x.ts".toList ["node_modules".toList] = true ∧
    matchesAnyPattern "a/b/c.ts".toList ["node_modules".toList] = false := by
  refine ⟨?_, by decide, by decide⟩
  unfold matchesAnyPattern
  simp only [List.any_cons, List.any_nil, Bool.or_false, h1, h2, Bool.not_false,
    Bool.and_self, if_true]
  by_cases hp : pattern = path.map (fun c => if c = '\\' then '/' else c)
  · simp [hp]
  · rw [if_neg hp]
    simp only [Bool.or_eq_true, decide_eq_true_eq]
    tauto

/-- Witness for `c7_segment_shorthand` at `path = "src/node_modules/x.ts"`,
`pattern = "node_modules"`. -/
theorem c7_segment_shorthand_witness :
    (matchesAnyPattern "src/node_modules/x.ts".toList ["node_modules".toList] = true ↔
      ("src/node_modules/x.ts".toList.map (fun c => if c = '\\' then '/' else c) =
         "node_modules".toList ∨
       ("node_modules".toList ++ ['/']).isPrefixOf
         ("src/node_modules/x.ts".toList.map (fun c => if c = '\\' then '/' else c)) = true ∨
       ('/' :: "node_modules".toList).isSuffixOf
         ("src/node_modules/x.ts".toList.map (fun c => if c = '\\' then '/' else c)) = true ∨
       listIncludes ("src/node_modules/x.ts".toList.map (fun c => if c = '\\' then '/' else c))
         ('/' :: ("node_modules".toList ++ ['/'])) = true)) ∧
    matchesAnyPattern "src/node_modules/x.ts".toList ["node_modules".toList] = true ∧
    matchesAnyPattern "a/b/c.ts".toList ["node_modules".toList] = false :=
  c7_segment_shorthand "src/node_modules/x.ts".toList "node_modules".toList
    (by decide) (by decide)

/-! ## Claim C10 — case sensitivity by pattern kind -/

/-- Claim C10: the segment-shorthand branch compares case-sensitively
(`"SRC"` vs the shorthand `"src"`, equal up to case, does not match),
while the glob branch matches case-insensitively (`"src/x.ts"` vs the
glob `"SRC/X.TS"`, equal up to case, does match). -/
theorem c10_case_sensitivity_by_kind :
    ("SRC".toList ≠ "src".toList ∧
     "SRC".toList.map Char.toLower = "src".toList.map Char.toLower ∧
     matchesAnyPattern "SRC".toList ["src".toList] = false) ∧
    ("src/x.ts".toList ≠ "SRC/X.TS".toList ∧
     "src/x.ts".toList.map Char.toLower = "SRC/X.TS".toList.map Char.toLower ∧
     matchesAnyPattern "src/x.ts".toList ["SRC/X.TS".toList] = true) := by
  decide

/-! ## Claim C9 — unknown bundle id falls back to the identity -/

/-- Claim C9: if the active bundle id is neither `"all"` nor the id of
any defined bundle, the bundle selector returns the file set unchanged. -/
theorem c9_unknown_bundle_id_is_identity (files : List FileEntry) (bundles : List Bundle)
    (activeBundleId : List Char) (hall : activeBundleId ≠ "all".toList)
    (hid : ∀ b ∈ bundles, b.id ≠ activeBundleId) :
    filteredFiles files bundles activeBundleId = files := by
  unfold filteredFiles
  rw [if_neg hall]
  have hnone : bundles.find? (fun b => b.id = activeBundleId) = none := by
    rw [List.find?_eq_none]
    intro b hb
    simp [hid b hb]
  rw [hnone]

/-- Witness for `c9_unknown_bundle_id_is_identity` with one file, one
bundle `"backend"`, and the unknown active id `"nope"`. -/
theorem c9_unknown_bundle_id_witness :
    filteredFiles [⟨"a.ts".toList, "a.ts".toList, "x".toList, 1, "ts".toList⟩]
      [⟨"backend".toList, "Backend".toList, ["src/**".toList]⟩] "nope".toList =
    [⟨"a.ts".toList, "a.ts".toList, "x".toList, 1, "ts".toList⟩] :=
  c9_unknown_bundle_id_is_identity _ _ _ (by decide) (by decide)

/-! ## Claim C4 — non-splitting mode -/

/-- Claim C4: with splitting disabled and a non-empty file set, `pack`
yields exactly one chunk labeled "Full Context" that carries every file,
in order, as a single unsplit part (`partIndex 1`, `totalParts 1`,
`isSplit false`), for every token budget (and independently of fuel:
the packing loop is not entered). -/
theorem c4_non_splitting_single_chunk (files : List FileEntry) (maxTokens fuel : Nat)
    (h : files ≠ []) :
    ∃ c : Chunk,
      pack files false maxTokens fuel = some [c] ∧
      c.label = "Full Context".toList ∧
      c.files.map ChunkFileEntry.toFileEntry = files ∧
      ∀ e ∈ c.files, e.isSplit = false ∧ e.partIndex = 1 ∧ e.totalParts = 1 ∧
        e.originalPath = e.toFileEntry.path := by
  refine ⟨{ id := "full".toList,
            files := files.enum.map (fun p => mkChunkFileEntry p.1 p.2),
            label := "Full Context".toList }, ?_, rfl, ?_, ?_⟩
  · unfold pack
    rw [if_neg (by
      simp only [List.length_map, List.enum_length]
      exact fun hz => h (List.length_eq_zero.mp hz))]
    rfl
  · rw [List.map_map]
    have : (ChunkFileEntry.toFileEntry ∘ fun p : Nat × FileEntry => mkChunkFileEntry p.1 p.2) =
        Prod.snd := rfl
    rw [this]
    exact List.enumFrom_map_snd 0 files
  · intro e he
    obtain ⟨p, _, rfl⟩ := List.mem_map.mp he
    exact ⟨rfl, rfl, rfl, rfl⟩

/-- Witness for `c4_non_splitting_single_chunk` with one concrete file
and budget 7. -/
theorem c4_non_splitting_witness :
    ∃ c : Chunk,
      pack [⟨"a.txt".toList, "a.txt".toList, "ab".toList, 2, "txt".toList⟩] false 7 3 =
        some [c] ∧
      c.label = "Full Context".toList ∧
      c.files.map ChunkFileEntry.toFileEntry =
        [⟨"a.txt".toList, "a.txt".toList, "ab".toList, 2, "txt".toList⟩] ∧
      ∀ e ∈ c.files, e.isSplit = false ∧ e.partIndex = 1 ∧ e.totalParts = 1 ∧
        e.originalPath = e.toFileEntry.path :=
  c4_non_splitting_single_chunk _ 7 3 (by decide)

/-! ## Claim C2 — termination of the packing loop -/

/-- With `maxTokens = 10` (`limitChars = 40`) the fresh-chunk space is
`40 - 100 - 200 = -260 < 0`; `findSplitPoint` then returns
`lastIndexOf('\n', -260) + 1 = 0`, the loop emits an empty part, flushes,
and is back in the same state with `remainingContent` untouched: no
amount of fuel makes it finish. -/
theorem packFileLoop_hello_diverges (fuel : Nat) :
    ∀ (chunks : List (List ChunkFileEntry)) (pc : Nat) (fp : List ChunkFileEntry),
      packFileLoop 40 (mkChunkFileEntry 0 helloFile) fuel "hello".toList pc fp
        { resultChunks := chunks, currentChunkFiles := [], currentChunkSize := 100 } = none := by
  induction fuel with
  | zero => intro chunks pc fp; rfl
  | succ f ih =>
    intro chunks pc fp
    exact ih (chunks ++ [[{ mkChunkFileEntry 0 helloFile with content := [], partIndex := pc }]])
      (pc + 1) (fp ++ [{ mkChunkFileEntry 0 helloFile with content := [], partIndex := pc }])

/-- Claim C2 fails on the code: with splitting enabled, budget
`maxTokens = 10` and the single file `"hello"`, the packing loop never
terminates (the model returns `none` for every fuel), because the
hard-cut path yields a split length of 0 when the available space is
negative and therefore makes no forward progress. -/
theorem c2_pack_diverges_on_small_budget (fuel : Nat) :
    pack [helloFile] true 10 fuel = none := by
  have h := packFileLoop_hello_diverges fuel [] 1 []
  unfold pack packFilesLoop packFile
  simp only [List.enum, List.enumFrom, List.map, List.length_cons, List.length_nil]
  norm_num
  rw [show (mkChunkFileEntry 0 helloFile).content = "hello".toList from rfl,
    show CHUNK_OVERHEAD = (100 : Int) from rfl, h]

/-! ## Claim C8 — the filter pipeline -/

theorem mem_insertSorted (a x : FileEntry) (l : List FileEntry) :
    a ∈ insertSorted x l ↔ a = x ∨ a ∈ l := by
  induction l with
  | nil => simp [insertSorted]
  | cons y ys ih =>
    simp only [insertSorted]
    split
    · simp [List.mem_cons]
    · simp only [List.mem_cons, ih]
      tauto

theorem mem_sortByPath (a : FileEntry) (l : List FileEntry) :
    a ∈ sortByPath l ↔ a ∈ l := by
  induction l with
  | nil => simp [sortByPath]
  | cons y ys ih =>
    show a ∈ insertSorted y (sortByPath ys) ↔ _
    rw [mem_insertSorted, ih]
    simp [List.mem_cons]

theorem mkEntry_inj {r r' : RawFile} (h : mkEntry r = mkEntry r') : r = r' := by
  cases r; cases r'
  simp only [mkEntry, FileEntry.mk.injEq] at h
  obtain ⟨h1, h2, h3, h4, -⟩ := h
  simp_all

/-- Claim C8: a readable input record is included in `processFiles`'s
output (as its processed entry) iff its path matches no ignore pattern,
its lowercased dot-prefixed extension is not denied, its size is at most
500 KiB, and its content has no NUL byte — the checks running in that
order in the source. -/
theorem c8_filter_pipeline (fileList : List RawFile)
    (ignorePatterns ignoreExtensions : List (List Char)) (r : RawFile)
    (hr : r ∈ fileList) :
    mkEntry r ∈ processFiles fileList ignorePatterns ignoreExtensions ↔
      (matchesAnyPattern r.path ignorePatterns = false ∧
       hasIgnoredExtension r.name ignoreExtensions = false ∧
       r.size ≤ 500 * 1024 ∧
       r.content.contains (Char.ofNat 0) = false) := by
  unfold processFiles
  rw [mem_sortByPath, List.mem_filterMap]
  constructor
  · rintro ⟨a, _, hfa⟩
    split_ifs at hfa with g1 g2 g3 g4
    have ha : a = r := mkEntry_inj (Option.some.injEq _ _ ▸ hfa)
    subst ha
    refine ⟨by simpa using g1, by simpa using g2, by omega, by simpa using g4⟩
  · rintro ⟨h1, h2, h3, h4⟩
    refine ⟨r, hr, ?_⟩
    rw [if_neg (by simp [h1]), if_neg (by simp [h2]), if_neg (by omega),
      if_neg (by rw [h4]; exact Bool.false_ne_true)]

/-- Witness for `c8_filter_pipeline`: one clean record, no ignore
patterns, no denied extensions. -/
theorem c8_filter_pipeline_witness :
    mkEntry ⟨"a.ts".toList, "a.ts".toList, 3, "abc".toList⟩ ∈
        processFiles [⟨"a.ts".toList, "a.ts".toList, 3, "abc".toList⟩] [] [] ↔
      (matchesAnyPattern "a.ts".toList [] = false ∧
       hasIgnoredExtension "a.ts".toList [] = false ∧
       (3 : Nat) ≤ 500 * 1024 ∧
       "abc".toList.contains (Char.ofNat 0) = false) :=
  c8_filter_pipeline _ [] [] _ (by decide)

/-! ## Packing-loop invariants (shared by claims C1 and C3) -/

/-- `slice(0, k) ++ slice(k)` reassembles the string for every `k`
(negative values clamp identically on both sides, as in JS). -/
theorem jsSlice_split (text : List Char) (k : Int) :
    jsSlice2 text 0 k ++ jsSlice1 text k = text := by
  unfold jsSlice1 jsSlice2
  have h0 : jsSliceIndex text.length 0 = 0 := by simp [jsSliceIndex]
  have hlen : jsSliceIndex text.length (text.length : Int) = text.length := by
    unfold jsSliceIndex
    rw [if_neg (by omega)]
    simp
  rw [h0, hlen, List.drop_zero, List.take_length, List.take_append_drop]

theorem allEntries_flushState (st : PackState) :
    allEntries (flushState st) = allEntries st := by
  simp [allEntries, flushState]

theorem allEntries_pushPart (part : ChunkFileEntry) (st : PackState) :
    allEntries (pushPart part st) = allEntries st ++ [part] := by
  simp [allEntries, pushPart]

theorem allEntries_pushMaybeFlush (c : Prop) [Decidable c] (part : ChunkFileEntry)
    (st : PackState) :
    allEntries (if c then flushState (pushPart part st) else pushPart part st) =
      allEntries st ++ [part] := by
  split
  · rw [allEntries_flushState, allEntries_pushPart]
  · rw [allEntries_pushPart]

/-- Invariant of the inner while-loop: a successful run appends to
`fileParts` a block of parts whose contents concatenate to the remaining
content, with consecutive part indexes, and appends exactly those parts
(in order) to the chunks held by the state. -/
theorem packFileLoop_spec (limitChars : Int) (cf : ChunkFileEntry) (fuel : Nat) :
    ∀ (rem : List Char) (pc : Nat) (fp : List ChunkFileEntry) (st : PackState)
      (fp' : List ChunkFileEntry) (st' : PackState),
      packFileLoop limitChars cf fuel rem pc fp st = some (fp', st') →
      ∃ l, fp' = fp ++ l ∧ goodParts cf pc rem l ∧ allEntries st' = allEntries st ++ l := by
  induction fuel with
  | zero => intro rem pc fp st fp' st' h; exact absurd h (by simp [packFileLoop])
  | succ f ih =>
    intro rem pc fp st fp' st' h
    simp only [packFileLoop] at h
    split at h
    · -- the file is exhausted: the loop returns what it accumulated
      rename_i hrem
      simp only [Option.some.injEq, Prod.mk.injEq] at h
      obtain ⟨rfl, rfl⟩ := h
      have hrem0 : rem = [] := List.length_eq_zero.mp hrem
      exact ⟨[], by simp, ⟨by simp [hrem0], by simp, by simp, by simp [hrem0]⟩, by simp⟩
    · split at h
      · -- minimum-usable-space flush, then continue
        obtain ⟨l, h1, h2, h3⟩ := ih _ _ _ _ _ _ h
        exact ⟨l, h1, h2, by rw [h3, allEntries_flushState]⟩
      · split at h
        · -- the remaining content fits into the current chunk
          rename_i hrem _ _
          obtain ⟨l', h1, h2, h3⟩ := ih _ _ _ _ _ _ h
          have hl' : l' = [] := h2.2.2.2.mpr rfl
          subst hl'
          refine ⟨[{ cf with content := rem, partIndex := pc }], by simpa using h1,
            ⟨by simp, by simp [List.range'], by simp, ?_⟩, ?_⟩
          · exact iff_of_false (by simp) (fun hr => hrem (by simp [hr]))
          · rw [h3, allEntries_pushPart]
            simp
        · -- the content is split at `findSplitPoint`
          rename_i hrem _ _
          obtain ⟨l', h1, h2, h3⟩ := ih _ _ _ _ _ _ h
          rw [allEntries_pushMaybeFlush] at h3
          obtain ⟨hc1, hc2, hc3, _⟩ := h2
          set sl := findSplitPoint rem (limitChars - st.currentChunkSize - PER_FILE_OVERHEAD)
            with hsl
          set part : ChunkFileEntry := { cf with content := jsSlice2 rem 0 sl, partIndex := pc }
            with hpart
          refine ⟨part :: l', by simpa using h1, ⟨?_, ?_, ?_, ?_⟩, ?_⟩
          · simpa [hpart, hc1] using jsSlice_split rem sl
          · simp only [List.map_cons, List.length_cons, List.range'_succ, hc2, hpart]
          · intro e he
            rcases List.mem_cons.mp he with rfl | he'
            · exact ⟨rfl, rfl⟩
            · exact hc3 e he'
          · exact iff_of_false (by simp) (fun hr => hrem (by simp [hr]))
          · rw [h3]
            simp

theorem stampEntry_content (fid n : Nat) (e : ChunkFileEntry) :
    (stampEntry fid n e).content = e.content := by
  unfold stampEntry; split <;> rfl

theorem stampEntry_partIndex (fid n : Nat) (e : ChunkFileEntry) :
    (stampEntry fid n e).partIndex = e.partIndex := by
  unfold stampEntry; split <;> rfl

theorem stampEntry_originalPath (fid n : Nat) (e : ChunkFileEntry) :
    (stampEntry fid n e).originalPath = e.originalPath := by
  unfold stampEntry; split <;> rfl

theorem stampEntry_fileId (fid n : Nat) (e : ChunkFileEntry) :
    (stampEntry fid n e).fileId = e.fileId := by
  unfold stampEntry; split <;> rfl

theorem stampEntry_of_ne (fid n : Nat) (e : ChunkFileEntry) (h : e.fileId ≠ fid) :
    stampEntry fid n e = e := if_neg h

theorem allEntries_stampState (fid n : Nat) (st : PackState) :
    allEntries (stampState fid n st) = (allEntries st).map (stampEntry fid n) := by
  simp [allEntries, stampState]

/-- The retroactive split-marking preserves everything `goodParts`
tracks. -/
theorem goodParts_map_stamp (cf : ChunkFileEntry) (startIdx n : Nat) (rem : List Char)
    (l : List ChunkFileEntry) (h : goodParts cf startIdx rem l) :
    goodParts cf startIdx rem (l.map (stampEntry cf.fileId n)) := by
  obtain ⟨h1, h2, h3, h4⟩ := h
  refine ⟨?_, ?_, ?_, ?_⟩
  · rw [List.map_map,
      show ((fun e : ChunkFileEntry => e.content) ∘ stampEntry cf.fileId n) =
        (fun e : ChunkFileEntry => e.content) from funext fun e => stampEntry_content _ _ e]
    exact h1
  · rw [List.map_map, List.length_map,
      show ((fun e : ChunkFileEntry => e.partIndex) ∘ stampEntry cf.fileId n) =
        (fun e : ChunkFileEntry => e.partIndex) from funext fun e => stampEntry_partIndex _ _ e]
    exact h2
  · intro e he
    obtain ⟨e₀, he₀, rfl⟩ := List.mem_map.mp he
    obtain ⟨hf, ho⟩ := h3 e₀ he₀
    rw [stampEntry_fileId, stampEntry_originalPath]
    exact ⟨hf, ho⟩
  · rw [List.map_eq_nil_iff]
    exact h4

/-- Processing one file appends its parts (possibly split-stamped) to the
state, leaving parts of other files untouched. -/
theorem packFile_spec (limitChars : Int) (fuel : Nat) (st : PackState) (cf : ChunkFileEntry)
    (st' : PackState) (hprior : ∀ e ∈ allEntries st, e.fileId ≠ cf.fileId)
    (h : packFile limitChars fuel st cf = some st') :
    ∃ l, allEntries st' = allEntries st ++ l ∧ goodParts cf 1 cf.content l := by
  unfold packFile at h
  cases hres : packFileLoop limitChars cf fuel cf.content 1 [] st with
  | none => rw [hres] at h; exact absurd h (by simp)
  | some p =>
    rw [hres] at h
    obtain ⟨fileParts, st₁⟩ := p
    simp only [Option.some.injEq] at h
    obtain ⟨l, hfp, hgood, hall⟩ := packFileLoop_spec limitChars cf fuel _ _ _ _ _ _ hres
    rw [List.nil_append] at hfp
    subst hfp
    by_cases hn : fileParts.length > 1
    · rw [if_pos hn] at h
      subst h
      have hpr : (allEntries st).map (stampEntry cf.fileId fileParts.length) = allEntries st := by
        rw [show allEntries st = (allEntries st).map id from (List.map_id _).symm, List.map_map]
        exact List.map_congr_left fun e he => stampEntry_of_ne _ _ _ (hprior e (by simpa using he))
      refine ⟨fileParts.map (stampEntry cf.fileId fileParts.length), ?_,
        goodParts_map_stamp _ _ _ _ _ hgood⟩
      rw [allEntries_stampState, hall, List.map_append, hpr]
    · rw [if_neg hn] at h
      subst h
      exact ⟨fileParts, hall, hgood⟩

/-- Invariant of the outer file loop: a successful run appends, file by
file, blocks of parts satisfying `goodParts`, provided the files carry
pairwise distinct ids that are also fresh for the incoming state. -/
theorem packFilesLoop_spec (limitChars : Int) (fuel : Nat) (cfs : List ChunkFileEntry) :
    ∀ (st st' : PackState),
      packFilesLoop limitChars fuel cfs st = some st' →
      (∀ e ∈ allEntries st, e.fileId ∉ cfs.map (fun c => c.fileId)) →
      (cfs.map (fun c => c.fileId)).Nodup →
      ∃ pls : List (List ChunkFileEntry),
        pls.length = cfs.length ∧
        allEntries st' = allEntries st ++ pls.flatten ∧
        ∀ i (hi : i < cfs.length) (hp : i < pls.length),
          goodParts (cfs.get ⟨i, hi⟩) 1 (cfs.get ⟨i, hi⟩).content (pls.get ⟨i, hp⟩) := by
  induction cfs with
  | nil =>
    intro st st' h _ _
    simp only [packFilesLoop, Option.some.injEq] at h
    subst h
    exact ⟨[], rfl, by simp, fun i hi _ => absurd hi (by simp)⟩
  | cons cf rest ih =>
    intro st st' h hprior hnodup
    simp only [packFilesLoop] at h
    cases hres : packFile limitChars fuel st cf with
    | none => rw [hres] at h; exact absurd h (by simp)
    | some st₁ =>
      rw [hres] at h
      simp only [List.map_cons, List.nodup_cons] at hnodup
      obtain ⟨hcfnot, hnodup'⟩ := hnodup
      have hpr1 : ∀ e ∈ allEntries st, e.fileId ≠ cf.fileId := by
        intro e he
        have := hprior e he
        simp only [List.map_cons, List.mem_cons] at this
        tauto
      obtain ⟨l₀, hall₀, hgood₀⟩ := packFile_spec limitChars fuel st cf st₁ hpr1 hres
      have hprior' : ∀ e ∈ allEntries st₁, e.fileId ∉ rest.map (fun c => c.fileId) := by
        intro e he
        rw [hall₀] at he
        rcases List.mem_append.mp he with h1 | h2
        · intro hmem
          apply hprior e h1
          simp only [List.map_cons, List.mem_cons]
          exact Or.inr hmem
        · rw [(hgood₀.2.2.1 e h2).1]
          exact hcfnot
      obtain ⟨pls, hlen, hall, hgood⟩ := ih st₁ st' h hprior' hnodup'
      refine ⟨l₀ :: pls, by simp [hlen], ?_, ?_⟩
      · rw [hall, hall₀]
        simp
      · intro i hi hp
        match i with
        | 0 => exact hgood₀
        | Nat.succ j =>
          exact hgood j (by simpa using hi) (by simpa using hp)

/-- Top-level structure of a successful splitting-mode run: the
concatenation of all chunks' entry lists decomposes into one consecutive
block of parts per input file, in input order, and the block of file `i`
satisfies `goodParts` for that file with ghost id `i`. -/
theorem pack_splitting_spec (files : List FileEntry) (maxTokens fuel : Nat)
    (chunks : List Chunk) (h : pack files true maxTokens fuel = some chunks) :
    ∃ pls : List (List ChunkFileEntry),
      pls.length = files.length ∧
      (chunks.map Chunk.files).flatten = pls.flatten ∧
      ∀ i (hi : i < files.length) (hp : i < pls.length),
        goodParts (mkChunkFileEntry i (files.get ⟨i, hi⟩)) 1 (files.get ⟨i, hi⟩).content
          (pls.get ⟨i, hp⟩) := by
  simp only [pack] at h
  by_cases hz : (files.enum.map (fun p => mkChunkFileEntry p.1 p.2)).length = 0
  · rw [if_pos hz] at h
    simp only [Option.some.injEq] at h
    subst h
    have hf0 : files.length = 0 := by simpa using hz
    exact ⟨[], by simp [hf0], by simp, fun i hi _ => absurd hi (by omega)⟩
  · rw [if_neg hz, if_neg (by simp)] at h
    cases hres : packFilesLoop ((maxTokens : Int) * 4) fuel
        (files.enum.map (fun p => mkChunkFileEntry p.1 p.2))
        { resultChunks := [], currentChunkFiles := [], currentChunkSize := CHUNK_OVERHEAD } with
    | none => rw [hres] at h; exact absurd h (by simp)
    | some st =>
      rw [hres] at h
      simp only [Option.some.injEq] at h
      subst h
      have hidmap : ((files.enum.map (fun p => mkChunkFileEntry p.1 p.2)).map
          (fun c => c.fileId)) = List.range files.length := by
        rw [List.map_map,
          show ((fun c : ChunkFileEntry => c.fileId) ∘
            fun p : Nat × FileEntry => mkChunkFileEntry p.1 p.2) = Prod.fst from rfl,
          List.range_eq_range']
        exact List.enumFrom_map_fst 0 files
      obtain ⟨pls, hlen, hall, hgood⟩ := packFilesLoop_spec ((maxTokens : Int) * 4) fuel
        (files.enum.map (fun p => mkChunkFileEntry p.1 p.2)) _ _ hres
        (by intro e he; simp [allEntries] at he)
        (by rw [hidmap]; exact List.nodup_range _)
      have hallnil : allEntries st = pls.flatten := by
        simpa [allEntries] using hall
      refine ⟨pls, by simpa using hlen, ?_, ?_⟩
      · rw [List.map_map,
          show (Chunk.files ∘ fun p : Nat × List ChunkFileEntry =>
            ({ id := ("part-" ++ toString (p.1 + 1)).toList, files := p.2,
               label := ("Part " ++ toString (p.1 + 1) ++ " of " ++
                 toString (if st.currentChunkFiles.length > 0 then
                     st.resultChunks ++ [st.currentChunkFiles]
                   else st.resultChunks).length).toList } : Chunk)) = Prod.snd from rfl,
          List.enum_eq_enumFrom, List.enumFrom_map_snd]
        rw [← hallnil]
        split
        · simp [allEntries]
        · rename_i hc
          have hcur : st.currentChunkFiles = [] := List.length_eq_zero.mp (by omega)
          simp [allEntries, hcur]
      · intro i hi hp
        have hi' : i < (files.enum.map (fun p => mkChunkFileEntry p.1 p.2)).length := by
          simpa using hi
        have hcfs : (files.enum.map (fun p => mkChunkFileEntry p.1 p.2)).get ⟨i, hi'⟩ =
            mkChunkFileEntry i (files.get ⟨i, hi⟩) := by
          simp [List.get_eq_getElem]
        have := hgood i hi' hp
        rw [hcfs] at this
        exact this

/-- Filtering the flattened parts by a ghost file id extracts exactly
that file's block, provided block `j` holds entries with id `off + j`. -/
theorem filter_flatten_fileId :
    ∀ (pls : List (List ChunkFileEntry)) (off i : Nat)
      (hids : ∀ j (hj : j < pls.length), ∀ e ∈ pls.get ⟨j, hj⟩, e.fileId = off + j)
      (hi : i < pls.length),
      pls.flatten.filter (fun e => e.fileId = off + i) = pls.get ⟨i, hi⟩
  | [], _, i, _, hi => absurd hi (by simp)
  | p :: rest, off, i, hids, hi => by
    have hp0 : ∀ e ∈ p, e.fileId = off := fun e he => by
      simpa using hids 0 (by simp) e he
    have hrest : ∀ j (hj : j < rest.length), ∀ e ∈ rest.get ⟨j, hj⟩,
        e.fileId = (off + 1) + j := fun j hj e he => by
      have := hids (j + 1) (by simpa using hj) e (by simpa using he)
      omega
    match i with
    | 0 =>
      simp only [List.flatten_cons, List.filter_append]
      rw [List.filter_eq_self.mpr (fun e he => by simp [hp0 e he]),
        List.filter_eq_nil_iff.mpr ?_]
      · simp
      · intro e he
        obtain ⟨l, hl, hel⟩ := List.mem_flatten.mp he
        obtain ⟨⟨j, hj⟩, rfl⟩ := List.mem_iff_get.mp hl
        have := hrest j hj e hel
        simp only [decide_eq_true_eq]
        omega
    | j + 1 =>
      simp only [List.flatten_cons, List.filter_append]
      have h1 : p.filter (fun e => decide (e.fileId = off + (j + 1))) = [] := by
        rw [List.filter_eq_nil_iff]
        intro e he
        have := hp0 e he
        simp only [decide_eq_true_eq]
        omega
      have h2 : (fun e : ChunkFileEntry => decide (e.fileId = off + (j + 1))) =
          (fun e : ChunkFileEntry => decide (e.fileId = (off + 1) + j)) := by
        funext e
        simp only [decide_eq_decide]
        omega
      rw [h1, h2, filter_flatten_fileId rest (off + 1) j hrest (by simpa using hi)]
      simp

theorem flatten_map_singletons (l : List ChunkFileEntry) :
    (l.map (fun x => [x])).flatten = l := by
  induction l with
  | nil => rfl
  | cons x xs ih => simp [ih]

theorem get_allFilesAsChunkFiles (files : List FileEntry) (i : Nat) (hi : i < files.length)
    (hi' : i < (files.enum.map (fun p => mkChunkFileEntry p.1 p.2)).length) :
    (files.enum.map (fun p => mkChunkFileEntry p.1 p.2)).get ⟨i, hi'⟩ =
      mkChunkFileEntry i (files.get ⟨i, hi⟩) := by
  simp [List.get_eq_getElem]

/-! ## Claim C1 — reconstruction -/

/-- Claim C1: for every input file set, token budget and splitting
configuration, whenever `pack` returns a chunk sequence, the parts
emitted for file `i` (identified across chunks by the file's identity)
appear with part indexes `1, 2, …, n` in emission order — so emission
order is increasing `partIndex` order — and their content slices
concatenate to exactly the file's original content, with no duplication
or loss. -/
theorem c1_reconstruction (files : List FileEntry) (enableSplitting : Bool)
    (maxTokens fuel : Nat) (chunks : List Chunk)
    (h : pack files enableSplitting maxTokens fuel = some chunks)
    (i : Nat) (hi : i < files.length) :
    ((((chunks.map Chunk.files).flatten.filter (fun e => e.fileId = i)).map
        (fun e => e.content)).flatten = (files.get ⟨i, hi⟩).content) ∧
    (((chunks.map Chunk.files).flatten.filter (fun e => e.fileId = i)).map
        (fun e => e.partIndex) =
      List.range' 1 ((chunks.map Chunk.files).flatten.filter
        (fun e => e.fileId = i)).length) := by
  have hpred : (fun e : ChunkFileEntry => decide (e.fileId = i)) =
      (fun e : ChunkFileEntry => decide (e.fileId = 0 + i)) := by
    funext e
    simp
  cases enableSplitting with
  | true =>
    obtain ⟨pls, hlen, hflat, hgood⟩ := pack_splitting_spec files maxTokens fuel chunks h
    have hp : i < pls.length := by omega
    have hids : ∀ j (hj : j < pls.length), ∀ e ∈ pls.get ⟨j, hj⟩, e.fileId = 0 + j := by
      intro j hj e he
      have hjf : j < files.length := by omega
      have := ((hgood j hjf hj).2.2.1 e he).1
      simpa [mkChunkFileEntry] using this
    have hfilter := filter_flatten_fileId pls 0 i hids hp
    rw [hflat, hpred, hfilter]
    obtain ⟨g1, g2, -, -⟩ := hgood i hi hp
    exact ⟨g1, g2⟩
  | false =>
    simp only [pack] at h
    by_cases hz : (files.enum.map (fun p => mkChunkFileEntry p.1 p.2)).length = 0
    · refine absurd hi ?_
      simp only [List.length_map, List.enum_length] at hz
      omega
    · rw [if_neg hz, if_pos (by simp)] at h
      simp only [Option.some.injEq] at h
      subst h
      have hi' : i < (files.enum.map (fun p => mkChunkFileEntry p.1 p.2)).length := by
        simpa using hi
      have hids : ∀ j (hj : j <
          ((files.enum.map (fun p => mkChunkFileEntry p.1 p.2)).map (fun e => [e])).length),
          ∀ e ∈ ((files.enum.map (fun p => mkChunkFileEntry p.1 p.2)).map
            (fun e => [e])).get ⟨j, hj⟩, e.fileId = 0 + j := by
        intro j hj e he
        have hj' : j < (files.enum.map (fun p => mkChunkFileEntry p.1 p.2)).length := by
          simpa using hj
        have hjf : j < files.length := by simpa using hj'
        simp only [List.get_eq_getElem, List.getElem_map, List.mem_singleton] at he
        subst he
        simp [mkChunkFileEntry, List.enum_eq_enumFrom]
      have hfilter := filter_flatten_fileId
        ((files.enum.map (fun p => mkChunkFileEntry p.1 p.2)).map (fun e => [e])) 0 i hids
        (by simpa using hi')
      rw [flatten_map_singletons] at hfilter
      have hget : ((files.enum.map (fun p => mkChunkFileEntry p.1 p.2)).map
          (fun e => [e])).get ⟨i, by simpa using hi'⟩ =
          [mkChunkFileEntry i (files.get ⟨i, hi⟩)] := by
        simp [List.get_eq_getElem, mkChunkFileEntry, List.enum_eq_enumFrom]
      rw [hget] at hfilter
      simp only [List.map_cons, List.map_nil, List.flatten_cons, List.flatten_nil,
        List.append_nil, hpred, hfilter]
      exact ⟨rfl, by simp [List.range', mkChunkFileEntry]⟩

/-- Witness for `c1_reconstruction`: one file `"ab"`, splitting mode,
budget 25000, fuel 3; the single emitted part reproduces the content. -/
theorem c1_reconstruction_witness :
    ((((wChunks.map Chunk.files).flatten.filter (fun e => e.fileId = 0)).map
        (fun e => e.content)).flatten = wFile.content) ∧
    (((wChunks.map Chunk.files).flatten.filter (fun e => e.fileId = 0)).map
        (fun e => e.partIndex) =
      List.range' 1 ((wChunks.map Chunk.files).flatten.filter
        (fun e => e.fileId = 0)).length) :=
  c1_reconstruction [wFile] true 25000 3 wChunks (by decide) 0 (by decide)

/-! ## Claim C3 — coverage -/

/-- Claim C3 fails on the code: a file whose content is empty appears in
no chunk at all in splitting mode (the inner loop runs zero iterations
and emits zero parts), so the set of paths across all chunks is empty
while the input set is not. -/
theorem c3_counterexample :
    (pack [⟨"a.txt".toList, "a.txt".toList, [], 0, "txt".toList⟩] true 25000 5).map
        pathsInChunks = some [] ∧
    [(⟨"a.txt".toList, "a.txt".toList, [], 0, "txt".toList⟩ : FileEntry)].map
        FileEntry.path = ["a.txt".toList] := by
  decide

/-- Claim C3, amended: in splitting mode the set of original paths across
all produced chunks equals exactly the set of paths of input files with
nonempty content — every such file appears in at least one chunk (only as
the split parts of itself, whose indexes claim C1's theorem pins down),
while a file with empty content appears in no chunk. -/
theorem c3_coverage (files : List FileEntry) (maxTokens fuel : Nat)
    (chunks : List Chunk) (h : pack files true maxTokens fuel = some chunks)
    (p : List Char) :
    p ∈ pathsInChunks chunks ↔
      p ∈ (files.filter (fun f => !f.content.isEmpty)).map FileEntry.path := by
  obtain ⟨pls, hlen, hflat, hgood⟩ := pack_splitting_spec files maxTokens fuel chunks h
  unfold pathsInChunks
  rw [hflat]
  constructor
  · intro hp
    obtain ⟨e, he, rfl⟩ := List.mem_map.mp hp
    obtain ⟨l, hl, hel⟩ := List.mem_flatten.mp he
    obtain ⟨⟨j, hj⟩, rfl⟩ := List.mem_iff_get.mp hl
    have hjf : j < files.length := by omega
    obtain ⟨g1, g2, g3, g4⟩ := hgood j hjf hj
    rw [(g3 e hel).2]
    rw [List.mem_map]
    refine ⟨files.get ⟨j, hjf⟩, ?_, rfl⟩
    rw [List.mem_filter]
    refine ⟨List.get_mem _ _ _, ?_⟩
    have hne : pls.get ⟨j, hj⟩ ≠ [] := by
      intro hnil
      rw [hnil] at hel
      simp at hel
    have hcne : (files.get ⟨j, hjf⟩).content ≠ [] := fun hc => hne (g4.mpr hc)
    simpa using hcne
  · intro hp
    obtain ⟨f, hf, rfl⟩ := List.mem_map.mp hp
    rw [List.mem_filter] at hf
    obtain ⟨hfmem, hfne⟩ := hf
    obtain ⟨⟨j, hjf⟩, rfl⟩ := List.mem_iff_get.mp hfmem
    have hj : j < pls.length := by omega
    obtain ⟨g1, g2, g3, g4⟩ := hgood j hjf hj
    have hne : pls.get ⟨j, hj⟩ ≠ [] := by
      intro hnil
      rw [g4.mp hnil] at hfne
      simp at hfne
    obtain ⟨e, hel⟩ := List.exists_mem_of_ne_nil _ hne
    exact List.mem_map.mpr ⟨e,
      List.mem_flatten.mpr ⟨pls.get ⟨j, hj⟩, List.get_mem _ _ _, hel⟩, (g3 e hel).2⟩

/-- Witness for `c3_coverage`: the file `"a.txt"` with content `"ab"` is
covered by the single produced chunk. -/
theorem c3_coverage_witness :
    "a.txt".toList ∈ pathsInChunks wChunks ↔
      "a.txt".toList ∈ (([wFile] : List FileEntry).filter
        (fun f => !f.content.isEmpty)).map FileEntry.path :=
  c3_coverage [wFile] 25000 3 wChunks (by decide) "a.txt".toList

end ContextPacker

